import Mathlib

/-!
Shallow embedding of `python_env_secrets/manager.py`.

Strings are modelled as `List Char` (`Str`).  A text file is modelled as its
list of lines: for the secrets file the lines carry no terminating newline
character (the parser strips every line anyway, and the writer emits one
`"\n"`-terminated line per entry); for the project's `.env` linking file the
lines are the *raw* lines as Python's file iteration yields them, i.e. they
keep their terminating `'\n'` (except possibly the last line), because
`_upsert_env_key` inspects exactly that trailing newline.  The model assumes
keys and values contain no newline character (a newline inside an entry
would break the line discipline of the real file as well).

Python's `str.strip()` removes Unicode whitespace from both ends; `isPyWs`
models CPython's full class: the ASCII whitespace table 0x09-0x0d,
0x1c-0x1f, 0x20, plus the Unicode space characters.
-/

abbrev Str := List Char

/-- Whitespace class of CPython's `str.strip()`: the ASCII whitespace table
(tab, LF, VT, FF, CR at 0x09-0x0d, the separators 0x1c-0x1f, space) plus the
Unicode space characters (NEL 0x85, NBSP 0xa0, Ogham space 0x1680, the
0x2000-0x200a range, LS 0x2028, PS 0x2029, NNBSP 0x202f, MMSP 0x205f,
ideographic space 0x3000). -/
def isPyWs (c : Char) : Bool :=
  (0x09 ≤ c.toNat && c.toNat ≤ 0x0d) || c.toNat == 0x20 ||
  (0x1c ≤ c.toNat && c.toNat ≤ 0x1f) ||
  c.toNat == 0x85 || c.toNat == 0xa0 || c.toNat == 0x1680 ||
  (0x2000 ≤ c.toNat && c.toNat ≤ 0x200a) ||
  c.toNat == 0x2028 || c.toNat == 0x2029 || c.toNat == 0x202f ||
  c.toNat == 0x205f || c.toNat == 0x3000

/-- Remove leading whitespace, as in Python `str.lstrip()`. -/
def ltrim (s : Str) : Str := s.dropWhile isPyWs

/-- Remove trailing whitespace, as in Python `str.rstrip()`. -/
def rtrim (s : Str) : Str := (s.reverse.dropWhile isPyWs).reverse

/-- Python `str.strip()`: remove whitespace at both ends. -/
def strip (s : Str) : Str := ltrim (rtrim s)

/-- Python `line.split("=", 1)`: split at the first `'='`; `none` when the
line contains no `'='` (mirrors the `if "=" not in line: continue` guard). -/
def splitOnceEq : Str → Option (Str × Str)
  | [] => none
  | c :: cs =>
    if c = '=' then some ([], cs)
    else (splitOnceEq cs).map (fun p => (c :: p.1, p.2))

/-- The literal `"export "` prefix stripped by `_read_dotenv`. -/
def expStr : Str := ['e', 'x', 'p', 'o', 'r', 't', ' ']

/-- Quote stripping of `_read_dotenv`: strip the outer pair only when the
value has length at least 2 and its first character is a quote equal to its
last character (`len(value) >= 2 and value[0] in ('"', "'") and
value[0] == value[-1]`). -/
def stripQuotes (v : Str) : Str :=
  if 2 ≤ v.length ∧ (v.head? = some '"' ∨ v.head? = some '\'') ∧ v.head? = v.getLast?
  then (v.drop 1).dropLast
  else v

/-- One iteration of the `_read_dotenv` loop: parse a raw line into a
key/value pair, or `none` when the line is skipped (blank, comment, or no
`'='` after the optional `"export "` prefix is removed). -/
def parseLine (raw : Str) : Option (Str × Str) :=
  let line := strip raw
  if line = [] then none
  else if line.head? = some '#' then none
  else
    let line := if expStr.isPrefixOf line then line.drop 7 else line
    match splitOnceEq line with
    | none => none
    | some p => some (strip p.1, stripQuotes (strip p.2))

/-- Membership test of a Python `dict` modelled as an insertion-ordered
association list (`key in d`). -/
def dictHasKey {α : Type} (d : List (Str × α)) (k : Str) : Bool :=
  d.any (fun p => p.1 == k)

/-- Python `d[k] = v` on an insertion-ordered `dict`: updating an existing
key keeps its position, a new key is appended at the end. -/
def insertDict {α : Type} (d : List (Str × α)) (k : Str) (v : α) : List (Str × α) :=
  if dictHasKey d k then d.map (fun p => if p.1 == k then (k, v) else p)
  else d ++ [(k, v)]

/-- Python `d.get(k)` on the association list. -/
def lookupDict {α : Type} : List (Str × α) → Str → Option α
  | [], _ => none
  | p :: rest, k => if p.1 == k then some p.2 else lookupDict rest k

/-- Python `del d[k]` / `d.pop(k, None)` on the association list. -/
def eraseDict {α : Type} (d : List (Str × α)) (k : Str) : List (Str × α) :=
  d.filter (fun p => p.1 != k)

/-- The `_read_dotenv` loop with an explicit accumulator. -/
def readDotenvAux (acc : List (Str × Str)) (lines : List Str) : List (Str × Str) :=
  lines.foldl (fun d raw =>
    match parseLine raw with
    | none => d
    | some p => insertDict d p.1 p.2) acc

/-- Model of `_read_dotenv`: parse a key=value file into an insertion-ordered mapping
(later occurrences of a key overwrite earlier ones).  A missing file is
modelled as the empty line list. -/
def readDotenv (lines : List Str) : List (Str × Str) :=
  readDotenvAux [] lines

/-- Quoting trigger of `_write_secrets`:
`any(ch in v for ch in (" ", "=", "#", "'", '"'))`. -/
def needsQuote (v : Str) : Bool :=
  [' ', '=', '#', '\'', '"'].any (fun ch => v.contains ch)

/-- The value as `_write_secrets` renders it: wrapped in double quotes when
it contains a trigger character, verbatim otherwise; no escaping. -/
def renderValue (v : Str) : Str :=
  if needsQuote v then '"' :: (v ++ ['"']) else v

/-- The `f"{k}={v}"` entry line written by `_write_secrets`. -/
def entryLine (k v : Str) : Str := k ++ '=' :: renderValue v

/-- The comment header written by `_write_secrets`.  `project_dir` is a
`Path` in the source and hence always truthy when present; `env_secrets_id`
is a string, so the empty string suppresses the ID line (`if
env_secrets_id:`). -/
def headerLines (projectDir : Option Str) (envId : Option Str) : List Str :=
  ["# Python Env Secrets".toList,
   "# Do not share or commit this file to source control.".toList]
  ++ (match projectDir with
      | some p => ["# Project: ".toList ++ p]
      | none => [])
  ++ (match envId with
      | some i => if i = [] then [] else ["# ID: ".toList ++ i]
      | none => [])

/-- Model of `_write_secrets`: header comment lines, a blank line, then one entry
line per mapping entry in iteration order. -/
def writeSecrets (secrets : List (Str × Str)) (projectDir : Option Str)
    (envId : Option Str) : List Str :=
  headerLines projectDir envId ++ [([] : Str)] ++ secrets.map (fun p => entryLine p.1 p.2)

/-- The per-line match condition of `_upsert_env_key`:
`stripped and not stripped.startswith("#") and "=" in stripped and
stripped.split("=", 1)[0].strip() == key`. -/
def upsertMatches (key : Str) (raw : Str) : Bool :=
  let stripped := strip raw
  !stripped.isEmpty && !(stripped.head? == some '#') &&
    (match splitOnceEq stripped with
     | some p => strip p.1 == key
     | none => false)

/-- Model of `_upsert_env_key` on the raw lines of the `.env` file (a missing file is
the empty list).  Matching lines are replaced by `f"{key}={value}\n"`;
otherwise the entry is appended, preceded by a bare `"\n"` line when the
file is non-empty and its last raw line lacks a trailing newline. -/
def upsertEnvKey (lines : List Str) (key value : Str) : List Str :=
  let entry := key ++ '=' :: (value ++ ['\n'])
  let processed := lines.map (fun raw => if upsertMatches key raw then entry else raw)
  if lines.any (upsertMatches key) then processed
  else
    match processed.getLast? with
    | none => [entry]
    | some l => if l.getLast? == some '\n' then processed ++ [entry]
                else processed ++ [['\n'], entry]

/-- The managed key `ENV_SECRETS_ID`. -/
def idKey : Str := "ENV_SECRETS_ID".toList

/-- The mutable state outside the manager object: the project's `.env` file
(raw lines), the per-identifier secrets files (keyed by identifier, absent
key = file does not exist), and `os.environ`. -/
structure World where
  envFile : List Str
  secretsFS : List (Str × List Str)
  environ : List (Str × Str)
deriving DecidableEq, Repr

/-- The fields of `EnvSecretsManager` that drive its behaviour:
`env_secrets_id` and whether `secrets_path` has been resolved (the path
itself is determined by the identifier). -/
structure Manager where
  projectDir : Str
  envSecretsId : Option Str
  secretsPathSet : Bool
deriving DecidableEq, Repr

/-- The error raised by `_ensure_initialised`. -/
inductive MError where
  | notInitialised
deriving DecidableEq, Repr

/-- A manager constructed with `auto_init=False`: no identifier, no secrets
path. -/
def newManager (projectDir : Str) : Manager :=
  ⟨projectDir, none, false⟩

/-- Content of the secrets file for identifier `i` (missing file parses as
empty, mirroring `_read_dotenv`'s existence check). -/
def secretsLinesFor (w : World) (i : Str) : List Str :=
  (lookupDict w.secretsFS i).getD []

/-- The `os.environ[key] = value` loop of `load`. -/
def setEnvVars (environ : List (Str × Str)) (secrets : List (Str × Str)) :
    List (Str × Str) :=
  secrets.foldl (fun e p => insertDict e p.1 p.2) environ

/-- Model of `load`: parse the secrets file and inject every pair into the
environment mapping; fails when the manager is not initialised. -/
def loadOp (m : Manager) (w : World) : Except MError (List (Str × Str)) × World :=
  match m.envSecretsId, m.secretsPathSet with
  | some i, true =>
    let secrets := readDotenv (secretsLinesFor w i)
    (.ok secrets, { w with environ := setEnvVars w.environ secrets })
  | _, _ => (.error .notInitialised, w)

/-- Model of `get`: fresh parse of the secrets file, no side effect. -/
def getOp (m : Manager) (w : World) (key : Str) : Except MError (Option Str) × World :=
  match m.envSecretsId, m.secretsPathSet with
  | some i, true => (.ok (lookupDict (readDotenv (secretsLinesFor w i)) key), w)
  | _, _ => (.error .notInitialised, w)

/-- Model of `set`: read-modify-write of the whole secrets file, then update
`os.environ`. -/
def setOp (m : Manager) (w : World) (key value : Str) : Except MError Unit × World :=
  match m.envSecretsId, m.secretsPathSet with
  | some i, true =>
    let secrets := insertDict (readDotenv (secretsLinesFor w i)) key value
    (.ok (),
     { w with
        secretsFS := insertDict w.secretsFS i
          (writeSecrets secrets (some m.projectDir) (some i)),
        environ := insertDict w.environ key value })
  | _, _ => (.error .notInitialised, w)

/-- Model of `delete`: `False` with no write when the key is absent; otherwise remove
the key, rewrite the file and pop the key from `os.environ`. -/
def deleteOp (m : Manager) (w : World) (key : Str) : Except MError Bool × World :=
  match m.envSecretsId, m.secretsPathSet with
  | some i, true =>
    let secrets := readDotenv (secretsLinesFor w i)
    if dictHasKey secrets key then
      (.ok true,
       { w with
          secretsFS := insertDict w.secretsFS i
            (writeSecrets (eraseDict secrets key) (some m.projectDir) (some i)),
          environ := eraseDict w.environ key })
    else (.ok false, w)
  | _, _ => (.error .notInitialised, w)

/-- Model of `clear`: pop every parsed key from `os.environ`, rewrite the file with
no entries, return the previous entry count. -/
def clearOp (m : Manager) (w : World) : Except MError Nat × World :=
  match m.envSecretsId, m.secretsPathSet with
  | some i, true =>
    let secrets := readDotenv (secretsLinesFor w i)
    (.ok secrets.length,
     { w with
        environ := secrets.foldl (fun e p => eraseDict e p.1) w.environ,
        secretsFS := insertDict w.secretsFS i
          (writeSecrets [] (some m.projectDir) (some i)) })
  | _, _ => (.error .notInitialised, w)

/-- Model of `list`: fresh parse, no side effect. -/
def listOp (m : Manager) (w : World) : Except MError (List (Str × Str)) × World :=
  match m.envSecretsId, m.secretsPathSet with
  | some i, true => (.ok (readDotenv (secretsLinesFor w i)), w)
  | _, _ => (.error .notInitialised, w)

/-- The parts of `info()`'s summary dictionary that the model can express. -/
structure InfoSummary where
  envSecretsId : Option Str
  secretsFileExists : Bool
  secretsCount : Nat
deriving DecidableEq, Repr

/-- Model of `info`: `secrets = self.list() if self.secrets_path else {}` — note that
it does NOT call `_ensure_initialised` itself; on a freshly constructed
manager (`secrets_path is None`) it returns a summary instead of raising. -/
def infoOp (m : Manager) (w : World) : Except MError InfoSummary × World :=
  if m.secretsPathSet then
    match listOp m w with
    | (.ok secrets, w') =>
      (.ok ⟨m.envSecretsId,
            (match m.envSecretsId with
             | some i => (lookupDict w.secretsFS i).isSome
             | none => false),
            secrets.length⟩, w')
    | (.error e, w') => (.error e, w')
  else (.ok ⟨m.envSecretsId, false, 0⟩, w)

/-- Model of `init`: read `ENV_SECRETS_ID` from `.env` or generate a fresh one (the
nondeterministic `uuid.uuid4()` result is the `freshId` parameter) and
upsert it; create the secrets file if missing; `load`. -/
def initOp (m : Manager) (w : World) (freshId : Str) : (Manager × Str) × World :=
  let envVars := readDotenv w.envFile
  let idAndW : Str × World :=
    match lookupDict envVars idKey with
    | some v => (v, w)
    | none => (freshId, { w with envFile := upsertEnvKey w.envFile idKey freshId })
  let theId := idAndW.1
  let w1 := idAndW.2
  let m' : Manager := { m with envSecretsId := some theId, secretsPathSet := true }
  let w2 :=
    match lookupDict w1.secretsFS theId with
    | some _ => w1
    | none =>
      { w1 with
         secretsFS := insertDict w1.secretsFS theId
           (writeSecrets [] (some m.projectDir) (some theId)) }
  let secrets := readDotenv (secretsLinesFor w2 theId)
  ((m', theId), { w2 with environ := setEnvVars w2.environ secrets })

/-- A key that the write/parse pipeline maps to itself: whitespace-stable,
not a comment opener, free of `'='`, and not carrying the `"export "`
prefix that `_read_dotenv` strips. -/
def goodKey (k : Str) : Prop :=
  strip k = k ∧ k.head? ≠ some '#' ∧ k.contains '=' = false ∧
    expStr.isPrefixOf k = false

instance (k : Str) : Decidable (goodKey k) := by
  unfold goodKey; infer_instance

/-- Well-formedness of a generated identifier: `uuid.uuid4()` renders as
lowercase hyphenated hexadecimal, which is whitespace-stable and not
wrapped in quote characters. -/
def wellFormedId (u : Str) : Prop := strip u = u ∧ stripQuotes u = u

instance (u : Str) : Decidable (wellFormedId u) := by
  unfold wellFormedId; infer_instance

/-- Does this raw line of the linking file define the identifier key? -/
def yieldsId (raw : Str) : Bool :=
  match parseLine raw with
  | some p => p.1 == idKey
  | none => false

/-- Number of identifier-defining lines in the linking file. -/
def countIdLines (lines : List Str) : Nat := lines.countP yieldsId

/-- Number of leading comment lines of a written secrets file. -/
def leadingCommentCount (lines : List Str) : Nat :=
  (lines.takeWhile (fun l => l.head? == some '#')).length

/-! ### Basic facts about the trimming functions -/

theorem dropWhile_idem {α : Type} (p : α → Bool) (l : List α) :
    (l.dropWhile p).dropWhile p = l.dropWhile p := by
  induction l with
  | nil => rfl
  | cons c t ih =>
    cases h : p c
    · simp [List.dropWhile_cons, h]
    · simp [List.dropWhile_cons, h, ih]

theorem ltrim_sublist (s : Str) : (ltrim s).Sublist s :=
  List.dropWhile_sublist _

theorem rtrim_sublist (s : Str) : (rtrim s).Sublist s := by
  rw [← List.reverse_sublist]
  unfold rtrim
  rw [List.reverse_reverse]
  exact List.dropWhile_sublist _

theorem strip_sublist (s : Str) : (strip s).Sublist s :=
  (ltrim_sublist _).trans (rtrim_sublist _)

theorem strip_eq_self_split (h : strip s = s) : ltrim s = s ∧ rtrim s = s := by
  have h2 : (rtrim s).Sublist s := rtrim_sublist s
  have h1 : (strip s).Sublist (rtrim s) := ltrim_sublist (rtrim s)
  have hlen : (rtrim s).length = s.length := by
    have ha := h2.length_le
    have hb := h1.length_le
    rw [h] at hb
    omega
  have hr : rtrim s = s := h2.eq_of_length hlen
  refine ⟨?_, hr⟩
  have : strip s = ltrim s := by unfold strip; rw [hr]
  rw [← this, h]

theorem ltrim_cons_not_ws {c : Char} {l : Str} (h : isPyWs c = false) :
    ltrim (c :: l) = c :: l := by
  simp [ltrim, List.dropWhile_cons, h]

theorem ltrim_eq_self_of_head {s : Str} {c : Char} (hh : s.head? = some c)
    (h : isPyWs c = false) : ltrim s = s := by
  cases s with
  | nil => simp at hh
  | cons d t =>
    simp only [List.head?_cons, Option.some.injEq] at hh
    subst hh
    exact ltrim_cons_not_ws h

theorem rtrim_cons_not_ws {c : Char} {l : Str} (h : isPyWs c = false) :
    rtrim (c :: l) = c :: rtrim l := by
  unfold rtrim
  rw [show (c :: l).reverse = l.reverse ++ [c] from by simp, List.dropWhile_append]
  cases he : (l.reverse.dropWhile isPyWs).isEmpty
  · simp [he, List.dropWhile_cons, h]
  · rw [List.isEmpty_iff] at he
    simp [he, List.dropWhile_cons, h]

theorem rtrim_append_ne {a b : Str} (h : rtrim b ≠ []) :
    rtrim (a ++ b) = a ++ rtrim b := by
  have hne : (b.reverse.dropWhile isPyWs).isEmpty = false := by
    cases hh : b.reverse.dropWhile isPyWs with
    | nil => exact absurd (by unfold rtrim; rw [hh]; rfl) h
    | cons x xs => rfl
  unfold rtrim
  rw [List.reverse_append, List.dropWhile_append, hne]
  simp

theorem rtrim_append_nil {a b : Str} (h : rtrim b = []) :
    rtrim (a ++ b) = rtrim a := by
  have hem : (b.reverse.dropWhile isPyWs).isEmpty = true := by
    unfold rtrim at h
    rw [List.isEmpty_iff]
    have := congrArg List.reverse h
    simpa using this
  unfold rtrim
  rw [List.reverse_append, List.dropWhile_append, hem]
  simp

theorem rtrim_eq_self_of_last {s : Str} {c : Char} (hh : s.getLast? = some c)
    (h : isPyWs c = false) : rtrim s = s := by
  rw [List.getLast?_eq_head?_reverse] at hh
  unfold rtrim
  cases hr : s.reverse with
  | nil => rw [hr] at hh; simp at hh
  | cons d t =>
    rw [hr] at hh
    simp only [List.head?_cons, Option.some.injEq] at hh
    subst hh
    rw [List.dropWhile_cons, h]
    simp only [Bool.false_eq_true, if_false]
    rw [← hr, List.reverse_reverse]

theorem ltrim_head_not_ws {s : Str} {c : Char} (hh : (ltrim s).head? = some c) :
    isPyWs c = false := by
  have := List.head?_dropWhile_not isPyWs s
  unfold ltrim at hh
  rw [hh] at this
  exact this

theorem rtrim_last_not_ws {s : Str} {c : Char} (hh : (rtrim s).getLast? = some c) :
    isPyWs c = false := by
  have hrev : (s.reverse.dropWhile isPyWs).head? = some c := by
    have : (rtrim s).reverse = s.reverse.dropWhile isPyWs := by
      unfold rtrim; rw [List.reverse_reverse]
    rw [List.getLast?_eq_head?_reverse, this] at hh
    exact hh
  have := List.head?_dropWhile_not isPyWs s.reverse
  rw [hrev] at this
  exact this

theorem ltrim_idem (s : Str) : ltrim (ltrim s) = ltrim s :=
  dropWhile_idem _ _

theorem rtrim_idem (s : Str) : rtrim (rtrim s) = rtrim s := by
  unfold rtrim
  rw [List.reverse_reverse, dropWhile_idem]

theorem rtrim_nil_eq : rtrim ([] : Str) = [] := rfl

theorem rtrim_ltrim {x : Str} (h : rtrim x = x) : rtrim (ltrim x) = ltrim x := by
  have hx : x.takeWhile isPyWs ++ ltrim x = x := List.takeWhile_append_dropWhile _ _
  by_cases h0 : rtrim (ltrim x) = []
  · cases hl : ltrim x with
    | nil => rfl
    | cons c t =>
      exfalso
      have hcon : rtrim (x.takeWhile isPyWs ++ ltrim x) = rtrim (x.takeWhile isPyWs) :=
        rtrim_append_nil h0
      rw [hx, h] at hcon
      have hxlen : x.length = (rtrim (x.takeWhile isPyWs)).length :=
        congrArg List.length hcon
      have hlen2 : (rtrim (x.takeWhile isPyWs)).length ≤ (x.takeWhile isPyWs).length :=
        (rtrim_sublist _).length_le
      have hlen3 : (x.takeWhile isPyWs).length + (ltrim x).length = x.length := by
        rw [← List.length_append, hx]
      rw [hl] at hlen3
      simp only [List.length_cons] at hlen3
      omega
  · have h1 : rtrim (x.takeWhile isPyWs ++ ltrim x) = x.takeWhile isPyWs ++ rtrim (ltrim x) :=
      rtrim_append_ne h0
    rw [hx, h] at h1
    have h2 : x.takeWhile isPyWs ++ ltrim x = x.takeWhile isPyWs ++ rtrim (ltrim x) := by
      rw [hx, ← h1]
    exact (List.append_cancel_left h2).symm

theorem strip_idem (s : Str) : strip (strip s) = strip s := by
  unfold strip
  rw [rtrim_ltrim (rtrim_idem s), ltrim_idem]

theorem strip_eq_self_of {s : Str} (h1 : ltrim s = s) (h2 : rtrim s = s) :
    strip s = s := by
  unfold strip; rw [h2, h1]

/-! ### Facts about `splitOnceEq` -/

theorem splitOnceEq_eq_some {s a b : Str} (h : splitOnceEq s = some (a, b)) :
    s = a ++ '=' :: b ∧ '=' ∉ a := by
  induction s generalizing a b with
  | nil => simp [splitOnceEq] at h
  | cons c cs ih =>
    unfold splitOnceEq at h
    by_cases hc : c = '='
    · subst hc
      simp only [if_true] at h
      obtain ⟨rfl, rfl⟩ : [] = a ∧ cs = b := by
        have := Option.some.inj h
        exact ⟨congrArg Prod.fst this, congrArg Prod.snd this⟩
      simp
    · simp only [hc, if_false] at h
      cases hs : splitOnceEq cs with
      | none => rw [hs] at h; simp at h
      | some p =>
        rw [hs] at h
        simp only [Option.map_some', Option.some.injEq] at h
        obtain ⟨h1, h2⟩ : c :: p.1 = a ∧ p.2 = b :=
          ⟨congrArg Prod.fst h, congrArg Prod.snd h⟩
        obtain ⟨hs1, hs2⟩ := @ih p.1 p.2 (by rw [hs])
        subst h1; subst h2
        constructor
        · simp [List.cons_append, ← hs1]
        · intro hm
          rcases List.mem_cons.mp hm with he | hm'
          · exact hc he.symm
          · exact hs2 hm'

theorem splitOnceEq_none_iff {s : Str} : splitOnceEq s = none ↔ '=' ∉ s := by
  induction s with
  | nil => simp [splitOnceEq]
  | cons c cs ih =>
    unfold splitOnceEq
    by_cases hc : c = '='
    · subst hc; simp
    · simp only [hc, if_false]
      constructor
      · intro h hm
        rcases List.mem_cons.mp hm with he | hm'
        · exact hc he.symm
        · cases hs : splitOnceEq cs with
          | none => exact (ih.mp hs) hm'
          | some p => rw [hs] at h; simp at h
      · intro h
        have : '=' ∉ cs := fun hm => h (List.mem_cons_of_mem _ hm)
        rw [ih.mpr this]
        rfl

theorem splitOnceEq_cons (c : Char) (cs : Str) :
    splitOnceEq (c :: cs) =
      if c = '=' then some ([], cs)
      else (splitOnceEq cs).map (fun p => (c :: p.1, p.2)) := rfl

theorem splitOnceEq_append {a b : Str} (h : '=' ∉ a) :
    splitOnceEq (a ++ b) = (splitOnceEq b).map (fun p => (a ++ p.1, p.2)) := by
  induction a with
  | nil => simp [Option.map_id']
  | cons c cs ih =>
    have hc : c ≠ '=' := fun he => h (by rw [he]; exact List.mem_cons_self _ _)
    have hcs : '=' ∉ cs := fun hm => h (List.mem_cons_of_mem _ hm)
    simp only [List.cons_append]
    rw [splitOnceEq_cons, if_neg hc, ih hcs]
    cases splitOnceEq b with
    | none => rfl
    | some p => rfl

theorem splitOnceEq_key {k rest : Str} (h : '=' ∉ k) :
    splitOnceEq (k ++ '=' :: rest) = some (k, rest) := by
  rw [splitOnceEq_append h]
  simp [splitOnceEq]

/-! ### Facts about the association-list dictionary -/

theorem dictHasKey_cons {α : Type} {p : Str × α} {d : List (Str × α)} {k : Str} :
    dictHasKey (p :: d) k = ((p.1 == k) || dictHasKey d k) := by
  simp [dictHasKey]

theorem dictHasKey_false_forall {α : Type} {d : List (Str × α)} {k : Str}
    (h : dictHasKey d k = false) : ∀ p ∈ d, p.1 ≠ k := by
  intro p hp he
  unfold dictHasKey at h
  rw [List.any_eq_false] at h
  exact h p hp (by simp [he])

theorem lookupDict_of_hasKey_false {α : Type} {d : List (Str × α)} {k : Str}
    (h : dictHasKey d k = false) (tail : List (Str × α)) :
    lookupDict (d ++ tail) k = lookupDict tail k := by
  induction d with
  | nil => rfl
  | cons p rest ih =>
    rw [dictHasKey_cons, Bool.or_eq_false_iff] at h
    simp only [List.cons_append, lookupDict, h.1, Bool.false_eq_true, if_false]
    exact ih h.2

theorem lookupDict_map_replace {α : Type} {d : List (Str × α)} {k : Str} {v : α}
    (h : dictHasKey d k = true) :
    lookupDict (d.map (fun p => if p.1 == k then (k, v) else p)) k = some v := by
  induction d with
  | nil => simp [dictHasKey] at h
  | cons p rest ih =>
    cases hp : p.1 == k
    · rw [dictHasKey_cons, hp, Bool.false_or] at h
      simp only [List.map_cons, hp, Bool.false_eq_true, if_false, lookupDict]
      exact ih h
    · simp only [List.map_cons, hp, if_true, lookupDict]
      simp

theorem lookupDict_insert_self {α : Type} (d : List (Str × α)) (k : Str) (v : α) :
    lookupDict (insertDict d k v) k = some v := by
  unfold insertDict
  cases h : dictHasKey d k
  · simp only [Bool.false_eq_true, if_false]
    rw [lookupDict_of_hasKey_false h]
    simp [lookupDict]
  · simp only [if_true]
    exact lookupDict_map_replace h

theorem lookupDict_map_replace_ne {α : Type} {d : List (Str × α)} {k k' : Str} {v : α}
    (h : k' ≠ k) :
    lookupDict (d.map (fun p => if p.1 == k then (k, v) else p)) k' = lookupDict d k' := by
  induction d with
  | nil => rfl
  | cons p rest ih =>
    cases hp : p.1 == k
    · simp only [List.map_cons, hp, Bool.false_eq_true, if_false, lookupDict, ih]
    · have hpk : p.1 = k := by simpa using hp
      have h1 : (p.1 == k') = false := by
        rw [hpk]; exact beq_eq_false_iff_ne.mpr (fun hh => h hh.symm)
      have h2 : (k == k') = false := beq_eq_false_iff_ne.mpr (fun hh => h hh.symm)
      simp only [List.map_cons, hp, if_true, lookupDict, h1, h2, Bool.false_eq_true,
        if_false, ih]

theorem lookupDict_append_single_ne {α : Type} (d : List (Str × α)) {k k' : Str} (v : α)
    (h : k' ≠ k) :
    lookupDict (d ++ [(k, v)]) k' = lookupDict d k' := by
  induction d with
  | nil => simp [lookupDict, beq_eq_false_iff_ne.mpr (fun hh : k = k' => h hh.symm)]
  | cons p rest ih =>
    simp only [List.cons_append, lookupDict]
    cases hp : p.1 == k'
    · simp only [Bool.false_eq_true, if_false]
      exact ih
    · simp

theorem lookupDict_insert_ne {α : Type} (d : List (Str × α)) {k k' : Str} (v : α)
    (h : k' ≠ k) :
    lookupDict (insertDict d k v) k' = lookupDict d k' := by
  unfold insertDict
  cases hk : dictHasKey d k
  · simp only [Bool.false_eq_true, if_false]
    exact lookupDict_append_single_ne d v h
  · simp only [if_true]
    exact lookupDict_map_replace_ne h

theorem lookupDict_erase {α : Type} (d : List (Str × α)) (q k : Str) :
    lookupDict (eraseDict d q) k = if k = q then none else lookupDict d k := by
  induction d with
  | nil => simp [eraseDict, lookupDict]
  | cons p rest ih =>
    by_cases hpq : p.1 = q
    · have hf : (p.1 != q) = false := by simp [hpq]
      rw [eraseDict, List.filter_cons, hf]
      simp only [Bool.false_eq_true, if_false]
      rw [show List.filter (fun p => p.1 != q) rest = eraseDict rest q from rfl, ih]
      by_cases hkq : k = q
      · simp [hkq]
      · have hne : (p.1 == k) = false := by
          rw [hpq]; exact beq_eq_false_iff_ne.mpr (fun hh => hkq hh.symm)
        simp [hkq, lookupDict, hne]
    · have ht : (p.1 != q) = true := by simp [hpq]
      rw [eraseDict, List.filter_cons, ht]
      simp only [if_true]
      by_cases hpk : p.1 = k
      · have hb : (p.1 == k) = true := by simp [hpk]
        have hkq : k ≠ q := fun hh => hpq (hpk.trans hh)
        simp [lookupDict, hb, hkq]
      · have hb : (p.1 == k) = false := beq_eq_false_iff_ne.mpr hpk
        simp only [lookupDict, hb, Bool.false_eq_true, if_false]
        rw [show List.filter (fun p => p.1 != q) rest = eraseDict rest q from rfl, ih]

theorem insertDict_hasKey_self {α : Type} (d : List (Str × α)) (k : Str) (v : α) :
    dictHasKey (insertDict d k v) k = true := by
  unfold insertDict
  cases h : dictHasKey d k
  · simp only [Bool.false_eq_true, if_false]
    unfold dictHasKey
    rw [List.any_append]
    simp
  · simp only [if_true]
    unfold dictHasKey at h ⊢
    rw [List.any_eq_true] at h
    obtain ⟨p, hp, hpk⟩ := h
    rw [List.any_eq_true]
    exact ⟨(k, v), List.mem_map.mpr ⟨p, hp, by simp [hpk]⟩, by simp⟩

theorem mem_insertDict {α : Type} {d : List (Str × α)} {k : Str} {v : α} {p : Str × α}
    (h : p ∈ insertDict d k v) : p = (k, v) ∨ (p ∈ d ∧ p.1 ≠ k) := by
  unfold insertDict at h
  cases hk : dictHasKey d k
  · rw [hk] at h
    simp only [Bool.false_eq_true, if_false] at h
    rcases List.mem_append.mp h with hm | hm
    · exact Or.inr ⟨hm, dictHasKey_false_forall hk p hm⟩
    · simp at hm; exact Or.inl (by rw [hm])
  · rw [hk] at h
    simp only [if_true] at h
    obtain ⟨q, hq, hqe⟩ := List.mem_map.mp h
    cases hqk : q.1 == k
    · rw [hqk] at hqe
      simp only [Bool.false_eq_true, if_false] at hqe
      subst hqe
      exact Or.inr ⟨hq, by simpa using hqk⟩
    · rw [hqk] at hqe
      simp only [if_true] at hqe
      exact Or.inl hqe.symm

theorem insertDict_key_eq {α : Type} {d : List (Str × α)} {k : Str} {v : α} {p : Str × α}
    (h : p ∈ insertDict d k v) (hk : p.1 = k) : p = (k, v) := by
  rcases mem_insertDict h with h1 | h1
  · exact h1
  · exact absurd hk h1.2

/-! ### Facts about the parsing fold -/

theorem readDotenvAux_nil (acc : List (Str × Str)) : readDotenvAux acc [] = acc := rfl

theorem readDotenvAux_cons_none {raw : Str} (h : parseLine raw = none)
    (acc : List (Str × Str)) (lines : List Str) :
    readDotenvAux acc (raw :: lines) = readDotenvAux acc lines := by
  unfold readDotenvAux
  rw [List.foldl_cons, h]

theorem readDotenvAux_cons_some {raw : Str} {p : Str × Str}
    (h : parseLine raw = some p) (acc : List (Str × Str)) (lines : List Str) :
    readDotenvAux acc (raw :: lines) = readDotenvAux (insertDict acc p.1 p.2) lines := by
  unfold readDotenvAux
  rw [List.foldl_cons, h]

theorem readDotenvAux_append (acc : List (Str × Str)) (l1 l2 : List Str) :
    readDotenvAux acc (l1 ++ l2) = readDotenvAux (readDotenvAux acc l1) l2 :=
  List.foldl_append _ _ _ _

theorem lookup_readDotenvAux_no_yield {lines : List Str} {k : Str}
    (h : ∀ raw ∈ lines, ∀ v, parseLine raw ≠ some (k, v)) (acc : List (Str × Str)) :
    lookupDict (readDotenvAux acc lines) k = lookupDict acc k := by
  induction lines generalizing acc with
  | nil => rfl
  | cons raw rest ih =>
    cases hp : parseLine raw with
    | none =>
      rw [readDotenvAux_cons_none hp]
      exact ih (fun l hl v => h l (List.mem_cons_of_mem _ hl) v) acc
    | some p =>
      rw [readDotenvAux_cons_some hp]
      rw [ih (fun l hl v => h l (List.mem_cons_of_mem _ hl) v)]
      apply lookupDict_insert_ne
      intro hk
      exact h raw (List.mem_cons_self _ _) p.2 (by rw [hp, hk])

theorem lookup_readDotenvAux_none {lines : List Str} {k : Str} {acc : List (Str × Str)}
    (h : lookupDict (readDotenvAux acc lines) k = none) :
    lookupDict acc k = none ∧ ∀ raw ∈ lines, ∀ v, parseLine raw ≠ some (k, v) := by
  induction lines generalizing acc with
  | nil => exact ⟨h, by simp⟩
  | cons raw rest ih =>
    cases hp : parseLine raw with
    | none =>
      rw [readDotenvAux_cons_none hp] at h
      obtain ⟨h1, h2⟩ := ih h
      refine ⟨h1, ?_⟩
      intro l hl v
      rcases List.mem_cons.mp hl with rfl | hl'
      · rw [hp]; exact fun he => Option.noConfusion he
      · exact h2 l hl' v
    | some p =>
      rw [readDotenvAux_cons_some hp] at h
      obtain ⟨h1, h2⟩ := ih h
      have hk : p.1 ≠ k := by
        intro he
        rw [he, lookupDict_insert_self] at h1
        exact Option.noConfusion h1
      have h0 : lookupDict acc k = none := by
        rw [← lookupDict_insert_ne acc p.2 (fun hh : k = p.1 => hk hh.symm)]
        exact h1
      refine ⟨h0, ?_⟩
      intro l hl v
      rcases List.mem_cons.mp hl with rfl | hl'
      · rw [hp]
        intro he
        exact hk (congrArg Prod.fst (Option.some.inj he))
      · exact h2 l hl' v

theorem readDotenvAux_all_none {lines : List Str}
    (h : ∀ raw ∈ lines, parseLine raw = none) (acc : List (Str × Str)) :
    readDotenvAux acc lines = acc := by
  induction lines generalizing acc with
  | nil => rfl
  | cons raw rest ih =>
    rw [readDotenvAux_cons_none (h raw (List.mem_cons_self _ _))]
    exact ih (fun l hl => h l (List.mem_cons_of_mem _ hl)) acc

theorem lookup_readDotenvAux_last {l1 l2 : List Str} {raw k v : Str}
    (hp : parseLine raw = some (k, v))
    (h2 : ∀ l ∈ l2, ∀ w, parseLine l ≠ some (k, w)) (acc : List (Str × Str)) :
    lookupDict (readDotenvAux acc (l1 ++ raw :: l2)) k = some v := by
  rw [readDotenvAux_append, readDotenvAux_cons_some hp]
  rw [lookup_readDotenvAux_no_yield h2]
  exact lookupDict_insert_self _ _ _

theorem lookup_readDotenvAux_map_entry {d : List (Str × Str)} {k v : Str}
    {acc : List (Str × Str)}
    (hk : ∀ p ∈ d, p.1 = k → parseLine (entryLine p.1 p.2) = some (k, v))
    (hne : ∀ p ∈ d, p.1 ≠ k → ∀ w, parseLine (entryLine p.1 p.2) ≠ some (k, w))
    (hsome : dictHasKey d k = true ∨ lookupDict acc k = some v) :
    lookupDict (readDotenvAux acc (d.map (fun p => entryLine p.1 p.2))) k = some v := by
  induction d generalizing acc with
  | nil =>
    rcases hsome with hs | hs
    · simp [dictHasKey] at hs
    · exact hs
  | cons p rest ih =>
    simp only [List.map_cons]
    by_cases hpk : p.1 = k
    · rw [readDotenvAux_cons_some (hk p (List.mem_cons_self _ _) hpk)]
      refine ih (fun q hq => hk q (List.mem_cons_of_mem _ hq))
        (fun q hq => hne q (List.mem_cons_of_mem _ hq)) (Or.inr ?_)
      exact lookupDict_insert_self _ _ _
    · cases hq : parseLine (entryLine p.1 p.2) with
      | none =>
        rw [readDotenvAux_cons_none hq]
        refine ih (fun q hq' => hk q (List.mem_cons_of_mem _ hq'))
          (fun q hq' => hne q (List.mem_cons_of_mem _ hq')) ?_
        rcases hsome with hs | hs
        · rw [dictHasKey_cons, beq_eq_false_iff_ne.mpr hpk, Bool.false_or] at hs
          exact Or.inl hs
        · exact Or.inr hs
      | some q =>
        rw [readDotenvAux_cons_some hq]
        have hq1 : q.1 ≠ k := by
          intro he
          exact hne p (List.mem_cons_self _ _) hpk q.2 (by rw [hq, ← he])
        refine ih (fun r hr => hk r (List.mem_cons_of_mem _ hr))
          (fun r hr => hne r (List.mem_cons_of_mem _ hr)) ?_
        rcases hsome with hs | hs
        · rw [dictHasKey_cons, beq_eq_false_iff_ne.mpr hpk, Bool.false_or] at hs
          exact Or.inl hs
        · right
          rw [lookupDict_insert_ne acc q.2 (fun hh : k = q.1 => hq1 hh.symm)]
          exact hs

/-! ### How written entry lines parse back -/

theorem contains_eq_false_iff {l : Str} {c : Char} : l.contains c = false ↔ c ∉ l := by
  constructor
  · intro h hm
    rw [← List.elem_iff] at hm
    rw [show l.contains c = l.elem c from rfl, hm] at h
    exact Bool.noConfusion h
  · intro h
    cases he : l.contains c
    · rfl
    · exfalso
      apply h
      have h1 : l.elem c = true := by
        rw [← show l.contains c = l.elem c from rfl]
        exact he
      exact List.elem_iff.mp h1

theorem parseLine_eq (raw : Str) :
    parseLine raw =
      if strip raw = [] then none
      else if (strip raw).head? = some '#' then none
      else
        match splitOnceEq
            (if expStr.isPrefixOf (strip raw) then (strip raw).drop 7 else strip raw) with
        | none => none
        | some p => some (strip p.1, stripQuotes (strip p.2)) := rfl

theorem parseLine_of_strip_nil {raw : Str} (h : strip raw = []) : parseLine raw = none := by
  rw [parseLine_eq, h]
  simp

theorem head_not_ws_of_ltrim {k : Str} {c : Char} (hl : ltrim k = k)
    (hc : k.head? = some c) : isPyWs c = false := by
  cases k with
  | nil => simp at hc
  | cons d t =>
    have hd : d = c := by
      simpa using hc
    subst hd
    by_contra hws
    rw [Bool.not_eq_false] at hws
    unfold ltrim at hl
    rw [List.dropWhile_cons, hws] at hl
    simp only [if_true] at hl
    have h1 := congrArg List.length hl
    have h2 := (@List.dropWhile_sublist _ t isPyWs).length_le
    simp only [List.length_cons] at h1
    omega

theorem parseLine_of_head_hash {raw : Str} (h : raw.head? = some '#') :
    parseLine raw = none := by
  cases raw with
  | nil => simp at h
  | cons c t =>
    have hc : c = '#' := by simpa using h
    subst hc
    have hs : strip ('#' :: t) = '#' :: rtrim t := by
      unfold strip
      rw [rtrim_cons_not_ws (by decide), ltrim_cons_not_ws (by decide)]
    rw [parseLine_eq, hs]
    simp

theorem strip_rtrim (x : Str) : strip (rtrim x) = strip x := by
  unfold strip
  rw [rtrim_idem]

theorem exp_not_prefixOf_entry {k : Str} (hexp : expStr.isPrefixOf k = false)
    (hne : '=' ∉ k) (rest : Str) :
    expStr.isPrefixOf (k ++ '=' :: rest) = false := by
  by_contra h
  rw [Bool.not_eq_false] at h
  have hpre : expStr <+: (k ++ '=' :: rest) := List.isPrefixOf_iff_prefix.mp h
  have htake : expStr = (k ++ '=' :: rest).take 7 := by
    have h0 := List.prefix_iff_eq_take.mp hpre
    rw [show expStr.length = 7 from rfl] at h0
    exact h0
  rcases le_or_lt 7 k.length with hk | hk
  · rw [List.take_append_of_le_length hk] at htake
    have hp2 : expStr <+: k := htake ▸ List.take_prefix 7 k
    rw [List.isPrefixOf_iff_prefix.mpr hp2] at hexp
    exact Bool.noConfusion hexp
  · obtain ⟨n, hn⟩ : ∃ n, 7 - k.length = n + 1 := ⟨6 - k.length, by omega⟩
    have h7 : 7 = k.length + (7 - k.length) := by omega
    have hmem : '=' ∈ (k ++ '=' :: rest).take 7 := by
      rw [h7, List.take_append, hn, List.take_succ_cons]
      exact List.mem_append_right _ (List.mem_cons_self _ _)
    rw [← htake] at hmem
    exact absurd hmem (by decide)

theorem strip_entry {k : Str} (hk : strip k = k) (rv : Str) :
    strip (k ++ '=' :: rv) = k ++ '=' :: rtrim rv := by
  have hcons : rtrim ('=' :: rv) = '=' :: rtrim rv := rtrim_cons_not_ws (by decide)
  have h1 : rtrim (k ++ '=' :: rv) = k ++ '=' :: rtrim rv := by
    rw [rtrim_append_ne (by rw [hcons]; simp), hcons]
  unfold strip
  rw [h1]
  cases hkc : k with
  | nil =>
    simp only [List.nil_append]
    exact ltrim_cons_not_ws (by decide)
  | cons c t =>
    have hhead : isPyWs c = false := by
      refine head_not_ws_of_ltrim (strip_eq_self_split hk).1 ?_
      rw [hkc]; rfl
    rw [List.cons_append]
    exact ltrim_cons_not_ws hhead

theorem parseLine_entry_key {k : Str} (h1 : strip k = k) (h2 : k.contains '=' = false)
    (h3 : k.head? ≠ some '#') (h4 : expStr.isPrefixOf k = false) (v : Str) :
    parseLine (entryLine k v) = some (k, stripQuotes (strip (renderValue v))) := by
  have hmem : '=' ∉ k := contains_eq_false_iff.mp h2
  unfold entryLine
  rw [parseLine_eq, strip_entry h1]
  rw [if_neg (by simp : ¬(k ++ '=' :: rtrim (renderValue v) = []))]
  have hhash : ¬((k ++ '=' :: rtrim (renderValue v)).head? = some '#') := by
    cases k with
    | nil =>
      simp only [List.nil_append, List.head?_cons]
      intro he
      exact absurd (Option.some.inj he) (by decide)
    | cons c t =>
      simp only [List.cons_append, List.head?_cons]
      simpa using h3
  rw [if_neg hhash]
  rw [exp_not_prefixOf_entry h4 hmem]
  simp only [Bool.false_eq_true, if_false]
  rw [splitOnceEq_key hmem]
  show some (strip k, stripQuotes (strip (rtrim (renderValue v)))) =
    some (k, stripQuotes (strip (renderValue v)))
  rw [h1, strip_rtrim]

theorem parseLine_entry_hash {k : Str} (hh : k.head? = some '#') (v : Str) :
    parseLine (entryLine k v) = none := by
  apply parseLine_of_head_hash
  cases k with
  | nil => simp at hh
  | cons c t =>
    simp only [entryLine, List.cons_append, List.head?_cons]
    simpa using hh

theorem stripQuotes_of_no_quotes {v : Str} (hq : v.contains '"' = false)
    (hq' : v.contains '\'' = false) : stripQuotes v = v := by
  unfold stripQuotes
  cases v with
  | nil => simp
  | cons c t =>
    rw [if_neg]
    intro hcond
    obtain ⟨-, hc, -⟩ := hcond
    have hcm : c ∈ c :: t := List.mem_cons_self _ _
    rcases hc with hc | hc
    · have : c = '"' := by simpa using hc
      subst this
      exact absurd hcm (contains_eq_false_iff.mp hq)
    · have : c = '\'' := by simpa using hc
      subst this
      exact absurd hcm (contains_eq_false_iff.mp hq')

theorem needsQuote_false_no_trigger {v : Str} (h : needsQuote v = false) :
    v.contains ' ' = false ∧ v.contains '=' = false ∧ v.contains '#' = false ∧
      v.contains '\'' = false ∧ v.contains '"' = false := by
  unfold needsQuote at h
  rw [List.any_eq_false] at h
  refine ⟨?_, ?_, ?_, ?_, ?_⟩ <;>
    [exact Bool.not_eq_true _ ▸ Bool.of_not_eq_true (h ' ' (by decide));
     exact Bool.of_not_eq_true (h '=' (by decide));
     exact Bool.of_not_eq_true (h '#' (by decide));
     exact Bool.of_not_eq_true (h '\'' (by decide));
     exact Bool.of_not_eq_true (h '"' (by decide))]

theorem parseLine_entry_unquoted {k v : Str} (hk1 : strip k = k)
    (hk2 : k.contains '=' = false) (hk3 : k.head? ≠ some '#')
    (hk4 : expStr.isPrefixOf k = false)
    (hv1 : needsQuote v = false) (hv2 : strip v = v) :
    parseLine (entryLine k v) = some (k, v) := by
  rw [parseLine_entry_key hk1 hk2 hk3 hk4]
  obtain ⟨-, -, -, hq', hq⟩ := needsQuote_false_no_trigger hv1
  rw [show renderValue v = v from by unfold renderValue; rw [hv1]; rfl, hv2,
    stripQuotes_of_no_quotes hq hq']

theorem parseLine_entry_ne {k key : Str} (hk1 : strip k = k)
    (hk2 : k.contains '=' = false) (hk4 : expStr.isPrefixOf k = false)
    (hne : k ≠ key) (v w : Str) :
    parseLine (entryLine k v) ≠ some (key, w) := by
  by_cases hh : k.head? = some '#'
  · rw [parseLine_entry_hash hh]
    exact fun he => Option.noConfusion he
  · rw [parseLine_entry_key hk1 hk2 hh hk4]
    intro he
    exact hne (congrArg Prod.fst (Option.some.inj he))

theorem parseLine_key_props {raw k v : Str} (h : parseLine raw = some (k, v)) :
    strip k = k ∧ k.contains '=' = false := by
  rw [parseLine_eq] at h
  by_cases h0 : strip raw = []
  · rw [if_pos h0] at h; exact absurd h (by simp)
  rw [if_neg h0] at h
  by_cases h1 : (strip raw).head? = some '#'
  · rw [if_pos h1] at h; exact absurd h (by simp)
  rw [if_neg h1] at h
  cases hs : splitOnceEq
      (if expStr.isPrefixOf (strip raw) then (strip raw).drop 7 else strip raw) with
  | none => rw [hs] at h; exact absurd h (by simp)
  | some p =>
    rw [hs] at h
    have he := Option.some.inj h
    have hk : k = strip p.1 := (congrArg Prod.fst he).symm
    obtain ⟨-, hnp⟩ := splitOnceEq_eq_some hs
    constructor
    · rw [hk]; exact strip_idem _
    · rw [hk]
      apply contains_eq_false_iff.mpr
      intro hm
      exact hnp ((strip_sublist p.1).subset hm)

theorem readDotenvAux_keys {lines : List Str} {acc : List (Str × Str)}
    (hacc : ∀ p ∈ acc, strip p.1 = p.1 ∧ p.1.contains '=' = false) :
    ∀ p ∈ readDotenvAux acc lines, strip p.1 = p.1 ∧ p.1.contains '=' = false := by
  induction lines generalizing acc with
  | nil => exact hacc
  | cons raw rest ih =>
    cases hp : parseLine raw with
    | none =>
      rw [readDotenvAux_cons_none hp]
      exact ih hacc
    | some q =>
      rw [readDotenvAux_cons_some hp]
      refine ih ?_
      intro p hpm
      rcases mem_insertDict hpm with rfl | ⟨hpd, -⟩
      · exact parseLine_key_props (by rw [hp])
      · exact hacc p hpd

theorem readDotenv_keys {lines : List Str} :
    ∀ p ∈ readDotenv lines, strip p.1 = p.1 ∧ p.1.contains '=' = false :=
  readDotenvAux_keys (by simp)

/-! ### The written header parses to nothing -/

theorem headerLines_hash {projectDir envId : Option Str} :
    ∀ l ∈ headerLines projectDir envId, l.head? = some '#' := by
  intro l hl
  unfold headerLines at hl
  rw [List.mem_append, List.mem_append] at hl
  rcases hl with (hl | hl) | hl
  · rcases List.mem_cons.mp hl with rfl | hl'
    · rfl
    · rcases List.mem_cons.mp hl' with rfl | hl''
      · rfl
      · simp at hl''
  · cases projectDir with
    | none => simp at hl
    | some p =>
      have : l = "# Project: ".toList ++ p := by simpa using hl
      rw [this]
      rfl
  · cases envId with
    | none => simp at hl
    | some i =>
      have hl' : l ∈ (if i = [] then ([] : List Str) else ["# ID: ".toList ++ i]) := hl
      by_cases hi : i = []
      · rw [if_pos hi] at hl'; simp at hl'
      · rw [if_neg hi] at hl'
        have : l = "# ID: ".toList ++ i := by simpa using hl'
        rw [this]
        rfl

theorem readDotenv_writeSecrets_nil (projectDir envId : Option Str) :
    readDotenv (writeSecrets [] projectDir envId) = [] := by
  unfold writeSecrets readDotenv
  apply readDotenvAux_all_none
  intro raw hraw
  simp only [List.map_nil, List.append_nil, List.mem_append] at hraw
  rcases hraw with hraw | hraw
  · exact parseLine_of_head_hash (headerLines_hash raw hraw)
  · have : raw = [] := by simpa using hraw
    rw [this]
    exact parseLine_of_strip_nil rfl

/-! ### The `_upsert_env_key` match condition and the identifier key -/

theorem upsertMatches_yields {raw : Str} (h : upsertMatches idKey raw = true) :
    ∃ v, parseLine raw = some (idKey, v) := by
  unfold upsertMatches at h
  rw [Bool.and_eq_true, Bool.and_eq_true] at h
  obtain ⟨⟨hne, hhash⟩, hsplit⟩ := h
  have hne' : strip raw ≠ [] := by
    intro hc
    rw [hc] at hne
    simp at hne
  have hhash' : ¬((strip raw).head? = some '#') := by
    intro hc
    rw [hc] at hhash
    simp at hhash
  cases hs : splitOnceEq (strip raw) with
  | none => rw [hs] at hsplit; exact Bool.noConfusion hsplit
  | some p =>
    rw [hs] at hsplit
    have hkey : strip p.1 = idKey := by simpa using hsplit
    have hexp : expStr.isPrefixOf (strip raw) = false := by
      cases hpre : expStr.isPrefixOf (strip raw)
      · rfl
      · exfalso
        obtain ⟨t, ht⟩ := List.isPrefixOf_iff_prefix.mp hpre
        have hEnotin : '=' ∉ expStr := by decide
        have hs' : splitOnceEq (expStr ++ t) = some p := by rw [ht]; exact hs
        rw [splitOnceEq_append hEnotin] at hs'
        cases hst : splitOnceEq t with
        | none => rw [hst] at hs'; exact absurd hs' (by simp)
        | some q =>
          rw [hst] at hs'
          simp only [Option.map_some', Option.some.injEq] at hs'
          have hq1 : p.1 = expStr ++ q.1 :=
            (congrArg Prod.fst hs').symm
          rw [hq1] at hkey
          by_cases hr : rtrim q.1 = []
          · rw [show strip (expStr ++ q.1) = ltrim (rtrim expStr) from by
              unfold strip; rw [rtrim_append_nil hr]] at hkey
            exact absurd hkey (by decide)
          · rw [show strip (expStr ++ q.1) = expStr ++ rtrim q.1 from by
              unfold strip
              rw [rtrim_append_ne hr]
              exact ltrim_cons_not_ws (by decide)] at hkey
            have hchar : ('e' : Char) = 'E' := by
              have hhd := congrArg List.head? hkey
              simpa [expStr, idKey] using hhd
            exact absurd hchar (by decide)
    refine ⟨stripQuotes (strip p.2), ?_⟩
    rw [parseLine_eq, if_neg hne', if_neg hhash', hexp]
    simp only [Bool.false_eq_true, if_false]
    rw [hs]
    show some (strip p.1, stripQuotes (strip p.2)) = some (idKey, stripQuotes (strip p.2))
    rw [hkey]

theorem upsertMatches_eq_false_of_no_yield {raw : Str}
    (h : ∀ v, parseLine raw ≠ some (idKey, v)) : upsertMatches idKey raw = false := by
  cases hm : upsertMatches idKey raw
  · rfl
  · obtain ⟨v, hv⟩ := upsertMatches_yields hm
    exact absurd hv (h v)

/-! ### Environment-mapping erasure -/

theorem lookup_foldl_erase_none {ks : List (Str × Str)} {e : List (Str × Str)} {k : Str}
    (h : lookupDict e k = none) :
    lookupDict (ks.foldl (fun e' p => eraseDict e' p.1) e) k = none := by
  induction ks generalizing e with
  | nil => exact h
  | cons q rest ih =>
    rw [List.foldl_cons]
    apply ih
    rw [lookupDict_erase]
    by_cases hk : k = q.1
    · rw [if_pos hk]
    · rw [if_neg hk]; exact h

theorem lookup_foldl_erase_mem {ks : List (Str × Str)} {k : Str}
    (h : ∃ v, (k, v) ∈ ks) (e : List (Str × Str)) :
    lookupDict (ks.foldl (fun e' p => eraseDict e' p.1) e) k = none := by
  obtain ⟨v, hv⟩ := h
  induction ks generalizing e with
  | nil => simp at hv
  | cons q rest ih =>
    rw [List.foldl_cons]
    rcases List.mem_cons.mp hv with rfl | hv'
    · apply lookup_foldl_erase_none
      rw [lookupDict_erase]
      simp
    · exact ih _ hv'

/-! ### Parsing the identifier entry written by `_upsert_env_key` -/

theorem head?_append_cons_ne_hash {k : Str} {c : Char} (hk : k.head? ≠ some '#')
    (hc : c ≠ '#') (rest : Str) : ¬((k ++ c :: rest).head? = some '#') := by
  cases k with
  | nil =>
    simp only [List.nil_append, List.head?_cons]
    intro he
    exact hc (Option.some.inj he)
  | cons d t =>
    simp only [List.cons_append, List.head?_cons]
    simpa using hk

theorem parseLine_keyline {raw k vp : Str} (hst : strip raw = k ++ '=' :: vp)
    (h1 : strip k = k) (h2 : k.contains '=' = false) (h3 : k.head? ≠ some '#')
    (h4 : expStr.isPrefixOf k = false) :
    parseLine raw = some (k, stripQuotes (strip vp)) := by
  have hmem : '=' ∉ k := contains_eq_false_iff.mp h2
  rw [parseLine_eq, hst]
  rw [if_neg (by simp : ¬(k ++ '=' :: vp = []))]
  rw [if_neg (head?_append_cons_ne_hash h3 (by decide) vp)]
  rw [exp_not_prefixOf_entry h4 hmem]
  simp only [Bool.false_eq_true, if_false]
  rw [splitOnceEq_key hmem]
  show some (strip k, stripQuotes (strip vp)) = some (k, stripQuotes (strip vp))
  rw [h1]

theorem parseLine_upsert_entry {u : Str} (hu : wellFormedId u) :
    parseLine (idKey ++ '=' :: (u ++ ['\n'])) = some (idKey, u) := by
  obtain ⟨hu1, hu2⟩ := hu
  have hrt : rtrim (u ++ ['\n']) = u := by
    rw [rtrim_append_nil (by decide), (strip_eq_self_split hu1).2]
  have hst : strip (idKey ++ '=' :: (u ++ ['\n'])) = idKey ++ '=' :: u := by
    rw [strip_entry (by decide), hrt]
  rw [parseLine_keyline hst (by decide) (by decide) (by decide) (by decide), hu1, hu2]

/-! ### Lines that define the identifier key -/

theorem yieldsId_iff {raw : Str} :
    yieldsId raw = true ↔ ∃ v, parseLine raw = some (idKey, v) := by
  unfold yieldsId
  cases hp : parseLine raw with
  | none => simp
  | some p =>
    show (p.1 == idKey) = true ↔ ∃ v, some p = some (idKey, v)
    constructor
    · intro h
      have hpk : p.1 = idKey := by simpa using h
      exact ⟨p.2, by rw [← hpk]⟩
    · rintro ⟨v, hv⟩
      have := Option.some.inj hv
      simp [congrArg Prod.fst this]

theorem absent_iff_no_yield {lines : List Str} :
    lookupDict (readDotenv lines) idKey = none ↔
      ∀ raw ∈ lines, yieldsId raw = false := by
  constructor
  · intro h raw hraw
    obtain ⟨-, h2⟩ := lookup_readDotenvAux_none h
    cases hy : yieldsId raw
    · rfl
    · obtain ⟨v, hv⟩ := yieldsId_iff.mp hy
      exact absurd hv (h2 raw hraw v)
  · intro h
    unfold readDotenv
    rw [lookup_readDotenvAux_no_yield]
    · rfl
    · intro raw hraw v hv
      have hy : yieldsId raw = true := yieldsId_iff.mpr ⟨v, hv⟩
      rw [h raw hraw] at hy
      exact Bool.noConfusion hy

theorem exists_yield_of_lookup_some {lines : List Str} {v : Str}
    (h : lookupDict (readDotenv lines) idKey = some v) :
    ∃ raw ∈ lines, yieldsId raw = true := by
  by_contra hc
  push_neg at hc
  have hall : ∀ raw ∈ lines, yieldsId raw = false :=
    fun raw hraw => Bool.eq_false_iff.mpr (hc raw hraw)
  rw [absent_iff_no_yield.mpr hall] at h
  exact Option.noConfusion h

/-! ### Structure of an absent-branch upsert -/

theorem upsertEnvKey_of_absent {lines : List Str} {value : Str}
    (h : lookupDict (readDotenv lines) idKey = none) :
    upsertEnvKey lines idKey value =
      lines ++
      (match lines.getLast? with
       | none => []
       | some l => if l.getLast? = some '\n' then [] else [['\n']]) ++
      [idKey ++ '=' :: (value ++ ['\n'])] := by
  have hnm : ∀ raw ∈ lines, upsertMatches idKey raw = false := by
    intro raw hraw
    apply upsertMatches_eq_false_of_no_yield
    intro v hv
    obtain ⟨-, h2⟩ := lookup_readDotenvAux_none h
    exact h2 raw hraw v hv
  have hmap : lines.map
      (fun raw => if upsertMatches idKey raw
                  then idKey ++ '=' :: (value ++ ['\n']) else raw) = lines := by
    have hcg : ∀ a ∈ lines,
        (if upsertMatches idKey a then idKey ++ '=' :: (value ++ ['\n']) else a) = id a := by
      intro a ha
      rw [hnm a ha]
      simp
    rw [List.map_congr_left hcg, List.map_id]
  have hany : lines.any (upsertMatches idKey) = false :=
    List.any_eq_false.mpr (fun x hx => by rw [hnm x hx]; simp)
  unfold upsertEnvKey
  simp only [hmap, hany, Bool.false_eq_true, if_false]
  cases hl : lines.getLast? with
  | none =>
    have hnil : lines = [] := List.getLast?_eq_none_iff.mp hl
    subst hnil
    rfl
  | some l =>
    by_cases he : l.getLast? = some '\n'
    · simp [he]
    · simp [he]

/-! ### Unfolding `initOp` under each branch -/

theorem initOp_present {m : Manager} {w : World} {u v0 : Str}
    (h : lookupDict (readDotenv w.envFile) idKey = some v0) :
    (initOp m w u).1.2 = v0 ∧ ((initOp m w u).2).envFile = w.envFile := by
  simp only [initOp, h]
  cases hsf : lookupDict w.secretsFS v0 <;> simp [hsf]

theorem initOp_absent {m : Manager} {w : World} {u : Str}
    (h : lookupDict (readDotenv w.envFile) idKey = none) :
    (initOp m w u).1.2 = u ∧
      ((initOp m w u).2).envFile = upsertEnvKey w.envFile idKey u := by
  simp only [initOp, h]
  cases hsf : lookupDict w.secretsFS u <;> simp [hsf]

theorem contains_iff_mem {l : Str} {c : Char} : l.contains c = true ↔ c ∈ l :=
  List.elem_iff

/-! ## Claim theorems -/

/-- Claim C7 (amended): on a manager constructed without running `init`
(no identifier, no secrets path), `load`, `set`, `get`, `delete`, `clear`
and `list` all fail fast with the NotInitialized error and leave the world
(files and environment mapping) unchanged.  `info`, however, does NOT fail:
the source's `info()` never calls `_ensure_initialised` and returns a
summary with no identifier, no secrets file and a zero count. -/
theorem C7_uninitialised_guard (pd : Str) (w : World) (k v : Str) :
    loadOp (newManager pd) w = (.error .notInitialised, w) ∧
    setOp (newManager pd) w k v = (.error .notInitialised, w) ∧
    getOp (newManager pd) w k = (.error .notInitialised, w) ∧
    deleteOp (newManager pd) w k = (.error .notInitialised, w) ∧
    clearOp (newManager pd) w = (.error .notInitialised, w) ∧
    listOp (newManager pd) w = (.error .notInitialised, w) ∧
    infoOp (newManager pd) w = (.ok ⟨none, false, 0⟩, w) :=
  ⟨rfl, rfl, rfl, rfl, rfl, rfl, rfl⟩

/-- Claim C7, counterexample to the claim as stated: `info` on an
uninitialized manager succeeds with a summary instead of failing with the
NotInitialized error. -/
theorem C7_counterexample :
    (infoOp (newManager []) ⟨[], [], []⟩).1 = .ok ⟨none, false, 0⟩ ∧
    (infoOp (newManager []) ⟨[], [], []⟩).1 ≠ .error .notInitialised :=
  ⟨rfl, fun h => Except.noConfusion h⟩

/-- Claim C8 (amended): a full rewrite of the secrets file produces two
fixed leading comment lines, plus one comment line for the project path
when supplied and one for the identifier when supplied non-empty — so FOUR
leading comment lines in the manager's own calls, which always pass both —
followed by one blank line, then one KEY=VALUE line per entry in mapping
iteration order. -/
theorem C8_header_shape (secrets : List (Str × Str)) (p i : Str) (hi : i ≠ []) :
    writeSecrets secrets (some p) (some i) =
      ["# Python Env Secrets".toList,
       "# Do not share or commit this file to source control.".toList,
       "# Project: ".toList ++ p,
       "# ID: ".toList ++ i,
       []] ++ secrets.map (fun q => entryLine q.1 q.2) ∧
    leadingCommentCount (writeSecrets secrets (some p) (some i)) = 4 := by
  have h1 : writeSecrets secrets (some p) (some i) =
      ["# Python Env Secrets".toList,
       "# Do not share or commit this file to source control.".toList,
       "# Project: ".toList ++ p,
       "# ID: ".toList ++ i,
       []] ++ secrets.map (fun q => entryLine q.1 q.2) := by
    unfold writeSecrets headerLines
    simp [hi]
  refine ⟨h1, ?_⟩
  rw [h1]
  have hC : ((("# Project: ".toList ++ p) : Str).head? == some '#') = true := by
    rw [List.head?_append]
    rfl
  have hD : ((("# ID: ".toList ++ i) : Str).head? == some '#') = true := by
    rw [List.head?_append]
    rfl
  unfold leadingCommentCount
  simp only [List.cons_append, List.nil_append, List.takeWhile_cons, hC, hD]
  rfl

/-- Claim C8, counterexample to the claim as stated ("exactly three
leading comment lines"): with a project path and a non-empty identifier —
as in every call the manager itself makes — the rewrite emits four. -/
theorem C8_counterexample :
    leadingCommentCount (writeSecrets [] (some ['p']) (some ['x'])) = 4 ∧
    leadingCommentCount (writeSecrets [] (some ['p']) (some ['x'])) ≠ 3 := by
  constructor
  · decide
  · decide

/-- Claim C8, witness for the amended statement. -/
theorem C8_header_shape_witness :
    (['x'] : Str) ≠ [] ∧
    leadingCommentCount (writeSecrets [(['K'], ['v'])] (some ['p']) (some ['x'])) = 4 :=
  ⟨by decide, (C8_header_shape [(['K'], ['v'])] ['p'] ['x'] (by decide)).2⟩

/-- Claim C2: when the secrets file is rewritten, a value is wrapped in
double quotes if and only if it contains at least one of space, `=`, `#`,
single quote, double quote; the wrapped form is literally `"` ++ value ++
`"` with the value unchanged inside — no escaping ever happens.  The entry
line of the rewritten file is exactly `entryLine`. -/
theorem C2_quoting_rule (p i : Option Str) (k v : Str) :
    (writeSecrets [(k, v)] p i).getLast? = some (entryLine k v) ∧
    ((' ' ∈ v ∨ '=' ∈ v ∨ '#' ∈ v ∨ '\'' ∈ v ∨ '"' ∈ v) →
      entryLine k v = k ++ '=' :: '"' :: (v ++ ['"'])) ∧
    (¬(' ' ∈ v ∨ '=' ∈ v ∨ '#' ∈ v ∨ '\'' ∈ v ∨ '"' ∈ v) →
      entryLine k v = k ++ '=' :: v) := by
  have hbridge : needsQuote v = true ↔
      (' ' ∈ v ∨ '=' ∈ v ∨ '#' ∈ v ∨ '\'' ∈ v ∨ '"' ∈ v) := by
    simp [needsQuote, contains_iff_mem]
  refine ⟨?_, ?_, ?_⟩
  · unfold writeSecrets
    simp [List.getLast?_concat]
  · intro h
    unfold entryLine renderValue
    rw [hbridge.mpr h]
    rfl
  · intro h
    have hq : needsQuote v = false := by
      cases hqc : needsQuote v
      · rfl
      · exact absurd (hbridge.mp hqc) h
    unfold entryLine renderValue
    rw [hq]
    rfl

/-- Claim C2, witness: a value with a space is wrapped verbatim in double
quotes; a plain value is written verbatim. -/
theorem C2_quoting_rule_witness :
    entryLine ['K'] ['a', ' ', 'b'] = ['K'] ++ '=' :: '"' :: (['a', ' ', 'b'] ++ ['"']) ∧
    entryLine ['K'] ['a'] = ['K'] ++ '=' :: ['a'] :=
  ⟨(C2_quoting_rule none none ['K'] ['a', ' ', 'b']).2.1 (by decide),
   (C2_quoting_rule none none ['K'] ['a']).2.2 (by decide)⟩

/-- Claim C10: the parser is total and never reports an error — a line with
no `'='` left after blank/comment filtering and `"export "` stripping is
silently skipped (it parses to nothing, and appending it to a file leaves
the parse unchanged); surrounding quotes are stripped only when the value
has length at least 2 and its first and last characters are the same quote
character; a lone quote and mismatched quotes are returned verbatim. -/
theorem C10_parser_skips_and_quotes :
    (∀ raw : Str, strip raw ≠ [] → (strip raw).head? ≠ some '#' →
      splitOnceEq (if expStr.isPrefixOf (strip raw) then (strip raw).drop 7
                   else strip raw) = none →
      parseLine raw = none) ∧
    (∀ (xs : List Str) (raw : Str), parseLine raw = none →
      readDotenv (xs ++ [raw]) = readDotenv xs) ∧
    (∀ w : Str,
      ¬(2 ≤ w.length ∧ (w.head? = some '"' ∨ w.head? = some '\'') ∧
          w.head? = w.getLast?) →
      stripQuotes w = w) ∧
    parseLine ['K', '=', '"'] = some (['K'], ['"']) ∧
    parseLine ['K', '=', '"', 'a', '\''] = some (['K'], ['"', 'a', '\'']) := by
  refine ⟨?_, ?_, ?_, by decide, by decide⟩
  · intro raw h0 h1 h2
    rw [parseLine_eq, if_neg h0, if_neg h1, h2]
  · intro xs raw h
    unfold readDotenv
    rw [readDotenvAux_append, readDotenvAux_cons_none h, readDotenvAux_nil]
  · intro w h
    unfold stripQuotes
    rw [if_neg h]

/-- Claim C10, witness: a line with no equals sign is skipped; appending it
changes nothing; a lone double quote is returned verbatim. -/
theorem C10_witness :
    parseLine ['n', 'o', 'e', 'q'] = none ∧
    readDotenv ([['A', '=', '1']] ++ [['n', 'o', 'e', 'q']]) =
      readDotenv [['A', '=', '1']] ∧
    stripQuotes ['"'] = ['"'] :=
  ⟨C10_parser_skips_and_quotes.1 ['n', 'o', 'e', 'q'] (by decide) (by decide) (by decide),
   C10_parser_skips_and_quotes.2.1 [['A', '=', '1']] ['n', 'o', 'e', 'q'] (by decide),
   C10_parser_skips_and_quotes.2.2.1 ['"'] (by decide)⟩

/-- Claim C9: when the same key occurs on several parseable lines, the
parsed mapping holds the value of the LAST such line (later lines overwrite
earlier ones as the file is scanned top to bottom); and `get`/`list` (hence
also the read-modify-write of `set`, `delete`, `clear`, which start from
the same `_read_dotenv` call) operate on exactly this mapping. -/
theorem C9_last_occurrence_wins :
    (∀ (xs ys : List Str) (raw k v : Str),
      parseLine raw = some (k, v) →
      (∀ l ∈ ys, ∀ w, parseLine l ≠ some (k, w)) →
      lookupDict (readDotenv (xs ++ raw :: ys)) k = some v) ∧
    (∀ (m : Manager) (w : World) (i key : Str),
      m.envSecretsId = some i → m.secretsPathSet = true →
      (getOp m w key).1 = .ok (lookupDict (readDotenv (secretsLinesFor w i)) key) ∧
      (listOp m w).1 = .ok (readDotenv (secretsLinesFor w i))) := by
  constructor
  · intro xs ys raw k v hp hys
    exact lookup_readDotenvAux_last hp hys []
  · intro m w i key h1 h2
    constructor
    · simp [getOp, h1, h2]
    · simp [listOp, h1, h2]

/-- Claim C9, witness: with `A=1` before and `A=2` after, lookup returns
the last value `2`. -/
theorem C9_witness :
    lookupDict (readDotenv ([['A', '=', '1']] ++ ['A', '=', '2'] :: [['B', '=', '3']]))
      ['A'] = some ['2'] :=
  C9_last_occurrence_wins.1 [['A', '=', '1']] [['B', '=', '3']] ['A', '=', '2'] ['A'] ['2']
    (by decide)
    (by
      intro l hl w hw
      have hl' : l = ['B', '=', '3'] := by simpa using hl
      rw [hl', show parseLine ['B', '=', '3'] = some (['B'], ['3']) from by decide] at hw
      have hfst : (['B'] : Str) = ['A'] := congrArg Prod.fst (Option.some.inj hw)
      exact absurd hfst (by decide))

theorem readDotenvAux_header_blank (p i : Option Str) :
    readDotenvAux [] (headerLines p i ++ [([] : Str)]) = [] := by
  rw [readDotenvAux_append]
  rw [readDotenvAux_all_none
    (fun raw hraw => parseLine_of_head_hash (headerLines_hash raw hraw))]
  refine readDotenvAux_all_none ?_ []
  intro raw hraw
  have hr : raw = [] := by simpa using hraw
  rw [hr]
  exact parseLine_of_strip_nil rfl

/-- Claim C6: on an initialized manager, `clear()` returns the number of
entries the secrets file held before the call, removes every key the file
defined from the process environment mapping, and rewrites the file so that
an immediately following `list()` returns an empty mapping. -/
theorem C6_clear (m : Manager) (w : World) (i : Str)
    (h1 : m.envSecretsId = some i) (h2 : m.secretsPathSet = true) :
    (clearOp m w).1 = .ok (readDotenv (secretsLinesFor w i)).length ∧
    (∀ p ∈ readDotenv (secretsLinesFor w i),
      lookupDict ((clearOp m w).2).environ p.1 = none) ∧
    listOp m (clearOp m w).2 = (.ok [], (clearOp m w).2) := by
  refine ⟨by simp [clearOp, h1, h2], ?_, ?_⟩
  · intro p hp
    have henv : ((clearOp m w).2).environ =
        (readDotenv (secretsLinesFor w i)).foldl (fun e q => eraseDict e q.1) w.environ := by
      simp [clearOp, h1, h2]
    rw [henv]
    exact lookup_foldl_erase_mem ⟨p.2, hp⟩ w.environ
  · have hlines : secretsLinesFor (clearOp m w).2 i =
        writeSecrets [] (some m.projectDir) (some i) := by
      simp [clearOp, h1, h2, secretsLinesFor, lookupDict_insert_self]
    have hread : readDotenv (secretsLinesFor (clearOp m w).2 i) = [] := by
      rw [hlines, readDotenv_writeSecrets_nil]
    simp [listOp, h1, h2, hread]

/-- Claim C6, witness: after two entries, `clear` reports a count of 2. -/
theorem C6_clear_witness :
    (clearOp ⟨['p'], some ['x'], true⟩
        ⟨[], [(['x'], [['A', '=', '1'], ['B', '=', '2']])], [(['A'], ['1'])]⟩).1 =
      .ok 2 := by
  have h := (C6_clear ⟨['p'], some ['x'], true⟩
      ⟨[], [(['x'], [['A', '=', '1'], ['B', '=', '2']])], [(['A'], ['1'])]⟩ ['x'] rfl rfl).1
  rw [h]
  rfl

/-- Claim C5 (amended): on an initialized manager, `delete(key)` for a key
absent from the parsed secrets file returns false and performs no write at
all (world unchanged, hence the file's entry count is unchanged); for a
present key it returns true and removes the key from the process
environment mapping unconditionally, and — provided no OTHER parsed key of
the file begins with the `"export "` prefix (such a key, e.g. `export a`,
is written back verbatim and re-parses as `a`, shadowing the deleted key) —
the key is also removed from the secrets file and a subsequent `get(key)`
returns absent. -/
theorem C5_delete (m : Manager) (w : World) (i key : Str)
    (h1 : m.envSecretsId = some i) (h2 : m.secretsPathSet = true) :
    (dictHasKey (readDotenv (secretsLinesFor w i)) key = false →
      deleteOp m w key = (.ok false, w)) ∧
    (dictHasKey (readDotenv (secretsLinesFor w i)) key = true →
      (deleteOp m w key).1 = .ok true ∧
      lookupDict ((deleteOp m w key).2).environ key = none ∧
      ((∀ p ∈ readDotenv (secretsLinesFor w i), p.1 ≠ key →
          expStr.isPrefixOf p.1 = false) →
        (getOp m (deleteOp m w key).2 key).1 = .ok none)) := by
  constructor
  · intro habs
    simp [deleteOp, h1, h2, habs]
  · intro hpres
    have hres : (deleteOp m w key).1 = .ok true := by
      simp [deleteOp, h1, h2, hpres]
    have henv : ((deleteOp m w key).2).environ = eraseDict w.environ key := by
      simp [deleteOp, h1, h2, hpres]
    have hpres' : dictHasKey (readDotenv ((lookupDict w.secretsFS i).getD [])) key = true :=
      hpres
    have hlines : secretsLinesFor (deleteOp m w key).2 i =
        writeSecrets (eraseDict (readDotenv (secretsLinesFor w i)) key)
          (some m.projectDir) (some i) := by
      simp [deleteOp, h1, h2, hpres', secretsLinesFor, lookupDict_insert_self]
    refine ⟨hres, ?_, ?_⟩
    · rw [henv, lookupDict_erase]
      simp
    · intro hexp
      have hget : (getOp m (deleteOp m w key).2 key).1 =
          .ok (lookupDict (readDotenv (secretsLinesFor (deleteOp m w key).2 i)) key) := by
        simp [getOp, h1, h2]
      rw [hget, hlines]
      have hnone : lookupDict (readDotenv (writeSecrets
          (eraseDict (readDotenv (secretsLinesFor w i)) key)
          (some m.projectDir) (some i))) key = none := by
        unfold writeSecrets readDotenv
        rw [readDotenvAux_append, readDotenvAux_header_blank]
        rw [lookup_readDotenvAux_no_yield]
        · rfl
        · intro raw hraw v hv
          obtain ⟨q, hq, rfl⟩ := List.mem_map.mp hraw
          have hqmem := List.mem_filter.mp hq
          have hqne : q.1 ≠ key := by simpa using hqmem.2
          obtain ⟨hq1, hq2⟩ := readDotenv_keys q hqmem.1
          exact parseLine_entry_ne hq1 hq2 (hexp q hqmem.1 hqne) hqne q.2 v hv
      rw [hnone]

/-- Claim C5, counterexample to the claim as stated: with a secrets file
parsing to `a = 0` and `export a = 1` (from the line `export export a=1`),
deleting the present key `a` returns true — but the rewrite emits the line
`export a=1`, which re-parses as `a=1`, so the subsequent `get a` returns
`1` instead of absent. -/
theorem C5_counterexample :
    (deleteOp ⟨['p'], some ['x'], true⟩
      ⟨[], [(['x'],
        [['a', '=', '0'],
         ['e', 'x', 'p', 'o', 'r', 't', ' ', 'e', 'x', 'p', 'o', 'r', 't', ' ',
          'a', '=', '1']])], []⟩ ['a']).1 = .ok true ∧
    (getOp ⟨['p'], some ['x'], true⟩
      (deleteOp ⟨['p'], some ['x'], true⟩
        ⟨[], [(['x'],
          [['a', '=', '0'],
           ['e', 'x', 'p', 'o', 'r', 't', ' ', 'e', 'x', 'p', 'o', 'r', 't', ' ',
            'a', '=', '1']])], []⟩ ['a']).2 ['a']).1 = .ok (some ['1']) ∧
    (getOp ⟨['p'], some ['x'], true⟩
      (deleteOp ⟨['p'], some ['x'], true⟩
        ⟨[], [(['x'],
          [['a', '=', '0'],
           ['e', 'x', 'p', 'o', 'r', 't', ' ', 'e', 'x', 'p', 'o', 'r', 't', ' ',
            'a', '=', '1']])], []⟩ ['a']).2 ['a']).1 ≠ .ok none := by
  refine ⟨rfl, rfl, ?_⟩
  intro h
  rw [show (getOp ⟨['p'], some ['x'], true⟩
      (deleteOp ⟨['p'], some ['x'], true⟩
        ⟨[], [(['x'],
          [['a', '=', '0'],
           ['e', 'x', 'p', 'o', 'r', 't', ' ', 'e', 'x', 'p', 'o', 'r', 't', ' ',
            'a', '=', '1']])], []⟩ ['a']).2 ['a']).1 = .ok (some ['1']) from rfl] at h
  injection h with h1
  exact Option.noConfusion h1

/-- Claim C5, witness for the amended statement on a well-formed file. -/
theorem C5_delete_witness :
    deleteOp ⟨['p'], some ['x'], true⟩
      ⟨[], [(['x'], [['A', '=', '1']])], []⟩ ['B'] =
      (.ok false, ⟨[], [(['x'], [['A', '=', '1']])], []⟩) ∧
    (deleteOp ⟨['p'], some ['x'], true⟩
      ⟨[], [(['x'], [['A', '=', '1']])], [(['A'], ['1'])]⟩ ['A']).1 = .ok true ∧
    (getOp ⟨['p'], some ['x'], true⟩
      (deleteOp ⟨['p'], some ['x'], true⟩
        ⟨[], [(['x'], [['A', '=', '1']])], [(['A'], ['1'])]⟩ ['A']).2 ['A']).1 =
      .ok none :=
  ⟨(C5_delete ⟨['p'], some ['x'], true⟩ ⟨[], [(['x'], [['A', '=', '1']])], []⟩
      ['x'] ['B'] rfl rfl).1 (by rfl),
   ((C5_delete ⟨['p'], some ['x'], true⟩ ⟨[], [(['x'], [['A', '=', '1']])], [(['A'], ['1'])]⟩
      ['x'] ['A'] rfl rfl).2 (by rfl)).1,
   ((C5_delete ⟨['p'], some ['x'], true⟩ ⟨[], [(['x'], [['A', '=', '1']])], [(['A'], ['1'])]⟩
      ['x'] ['A'] rfl rfl).2 (by rfl)).2.2
     (by
       intro p hp hne
       rw [show readDotenv (secretsLinesFor
           ⟨[], [(['x'], [['A', '=', '1']])], [(['A'], ['1'])]⟩ ['x']) =
           [(['A'], ['1'])] from rfl] at hp
       have hp' : p = (['A'], ['1']) := by simpa using hp
       exact absurd (show p.1 = ['A'] from by rw [hp']) hne)⟩

/-- Claim C1 (amended): on an initialized manager, `set(key, value)`
followed by `get(key)` returns exactly `value`, provided the key is
well-formed (whitespace-stable, not starting with `#`, free of `=`, not
starting with `"export "`), the value contains none of the reserved
quoting-trigger characters AND no leading/trailing whitespace of any kind
(tabs, carriage returns, ...) and no newline, and no other parsed key of
the current file begins with `"export "` (which would shadow `key` after
the rewrite).  The unamended claim fails already for `value = "\t"`:
written unquoted, the tab is stripped on re-parse. -/
theorem C1_roundtrip (m : Manager) (w : World) (i k v : Str)
    (h1 : m.envSecretsId = some i) (h2 : m.secretsPathSet = true)
    (hk : goodKey k)
    (hv1 : needsQuote v = false) (hv2 : strip v = v) (hv3 : v.contains '\n' = false)
    (hfile : ∀ p ∈ readDotenv (secretsLinesFor w i), expStr.isPrefixOf p.1 = false) :
    (getOp m (setOp m w k v).2 k).1 = .ok (some v) := by
  obtain ⟨hk1, hk2, hk3, hk4⟩ := hk
  have hlines : secretsLinesFor (setOp m w k v).2 i =
      writeSecrets (insertDict (readDotenv (secretsLinesFor w i)) k v)
        (some m.projectDir) (some i) := by
    simp [setOp, h1, h2, secretsLinesFor, lookupDict_insert_self]
  have hget : (getOp m (setOp m w k v).2 k).1 =
      .ok (lookupDict (readDotenv (secretsLinesFor (setOp m w k v).2 i)) k) := by
    simp [getOp, h1, h2]
  rw [hget, hlines]
  have hcore : lookupDict (readDotenv (writeSecrets
      (insertDict (readDotenv (secretsLinesFor w i)) k v)
      (some m.projectDir) (some i))) k = some v := by
    unfold writeSecrets readDotenv
    rw [readDotenvAux_append, readDotenvAux_header_blank]
    apply lookup_readDotenvAux_map_entry
    · intro p hp hpk
      have hpv : p = (k, v) := insertDict_key_eq hp hpk
      rw [hpv]
      exact parseLine_entry_unquoted hk1 hk3 hk2 hk4 hv1 hv2
    · intro p hp hpk w' hw'
      rcases mem_insertDict hp with rfl | ⟨hpd, -⟩
      · exact absurd rfl hpk
      · obtain ⟨hq1, hq2⟩ := readDotenv_keys p hpd
        exact parseLine_entry_ne hq1 hq2 (hfile p hpd) hpk p.2 w' hw'
    · exact Or.inl (insertDict_hasKey_self _ _ _)
  rw [hcore]

/-- Claim C1, counterexample to the claim as stated: the value consisting
of a single tab character contains none of the reserved quoting-trigger
characters (space, `=`, `#`, `'`, `"`), yet `set("K", "\t")` followed by
`get("K")` returns the empty string — the unquoted tab is stripped when the
line `K=\t` is re-parsed. -/
theorem C1_counterexample :
    needsQuote ['\t'] = false ∧
    (getOp ⟨['p'], some ['x'], true⟩
      (setOp ⟨['p'], some ['x'], true⟩ ⟨[], [(['x'], [])], []⟩ ['K'] ['\t']).2
      ['K']).1 = .ok (some []) ∧
    (getOp ⟨['p'], some ['x'], true⟩
      (setOp ⟨['p'], some ['x'], true⟩ ⟨[], [(['x'], [])], []⟩ ['K'] ['\t']).2
      ['K']).1 ≠ .ok (some ['\t']) := by
  refine ⟨rfl, rfl, ?_⟩
  intro h
  rw [show (getOp ⟨['p'], some ['x'], true⟩
      (setOp ⟨['p'], some ['x'], true⟩ ⟨[], [(['x'], [])], []⟩ ['K'] ['\t']).2
      ['K']).1 = .ok (some ([] : Str)) from rfl] at h
  injection h with h1
  injection h1 with h2
  exact List.noConfusion h2

/-- Claim C1, witness for the amended statement. -/
theorem C1_roundtrip_witness :
    (getOp ⟨['p'], some ['x'], true⟩
      (setOp ⟨['p'], some ['x'], true⟩ ⟨[], [(['x'], [])], []⟩ ['K'] ['v']).2
      ['K']).1 = .ok (some ['v']) :=
  C1_roundtrip ⟨['p'], some ['x'], true⟩ ⟨[], [(['x'], [])], []⟩ ['x'] ['K'] ['v']
    rfl rfl (by decide) (by decide) (by decide) (by decide)
    (by
      intro p hp
      rw [show readDotenv (secretsLinesFor ⟨[], [(['x'], [])], []⟩ ['x']) = [] from rfl] at hp
      exact absurd hp (List.not_mem_nil p))

/-- Claim C4: when `init` has to insert the identifier (the key is absent
from the parsed linking file), every original raw line is preserved
byte-for-byte in its original position and order — the new entry is
appended at the end, preceded by a bare newline exactly when the file is
non-empty and its last line lacks a trailing newline; and the linking file
is written by `init` only in the absent branch: when the key is present the
file is left untouched. -/
theorem C4_upsert_frame :
    (∀ (lines : List Str) (v : Str),
      lookupDict (readDotenv lines) idKey = none →
      upsertEnvKey lines idKey v =
        lines ++
        (match lines.getLast? with
         | none => []
         | some l => if l.getLast? = some '\n' then [] else [['\n']]) ++
        [idKey ++ '=' :: (v ++ ['\n'])]) ∧
    (∀ (m : Manager) (w : World) (u : Str),
      lookupDict (readDotenv w.envFile) idKey = none →
      ((initOp m w u).2).envFile = upsertEnvKey w.envFile idKey u) ∧
    (∀ (m : Manager) (w : World) (u v0 : Str),
      lookupDict (readDotenv w.envFile) idKey = some v0 →
      ((initOp m w u).2).envFile = w.envFile) := by
  refine ⟨?_, ?_, ?_⟩
  · intro lines v h
    exact upsertEnvKey_of_absent h
  · intro m w u h
    exact (initOp_absent h).2
  · intro m w u v0 h
    exact (initOp_present h).2

/-- Claim C4, witness: a pre-existing unrelated line (without trailing
newline) is preserved verbatim, a newline and the identifier entry are
appended; and a file already holding the identifier is not rewritten. -/
theorem C4_upsert_frame_witness :
    upsertEnvKey [['E', 'X', '=', 'h', 'i']] idKey ['u'] =
      [['E', 'X', '=', 'h', 'i']] ++ [['\n']] ++ [idKey ++ '=' :: (['u'] ++ ['\n'])] ∧
    ((initOp ⟨['p'], none, false⟩
        ⟨[idKey ++ ['=', 'a', '\n']], [], []⟩ ['u']).2).envFile =
      [idKey ++ ['=', 'a', '\n']] :=
  ⟨C4_upsert_frame.1 [['E', 'X', '=', 'h', 'i']] ['u'] (by decide),
   C4_upsert_frame.2.2 ⟨['p'], none, false⟩ ⟨[idKey ++ ['=', 'a', '\n']], [], []⟩
     ['u'] ['a'] (by decide)⟩

theorem countIdLines_upsert_absent {lines : List Str} {u : Str} (hu : wellFormedId u)
    (h : lookupDict (readDotenv lines) idKey = none) :
    countIdLines (upsertEnvKey lines idKey u) = 1 ∧
    lookupDict (readDotenv (upsertEnvKey lines idKey u)) idKey = some u := by
  rw [upsertEnvKey_of_absent h]
  have hlines0 : ∀ raw ∈ lines, yieldsId raw = false := absent_iff_no_yield.mp h
  have hentry : parseLine (idKey ++ '=' :: (u ++ ['\n'])) = some (idKey, u) :=
    parseLine_upsert_entry hu
  constructor
  · unfold countIdLines
    rw [List.countP_append, List.countP_append]
    have c1 : List.countP yieldsId lines = 0 :=
      List.countP_eq_zero.mpr (fun a ha => by rw [hlines0 a ha]; simp)
    have c3 : List.countP yieldsId ([idKey ++ '=' :: (u ++ ['\n'])] : List Str) = 1 := by
      have hy : yieldsId (idKey ++ '=' :: (u ++ ['\n'])) = true :=
        yieldsId_iff.mpr ⟨u, hentry⟩
      simp [List.countP_cons, hy]
    have c2 : List.countP yieldsId
        (match lines.getLast? with
         | none => ([] : List Str)
         | some l => if l.getLast? = some '\n' then [] else [['\n']]) = 0 := by
      cases lines.getLast? with
      | none => rfl
      | some l =>
        show List.countP yieldsId
          (if List.getLast? l = some '\n' then [] else [['\n']]) = 0
        by_cases he : l.getLast? = some '\n'
        · rw [if_pos he]; rfl
        · rw [if_neg he]
          simp [List.countP_cons, show yieldsId ['\n'] = false from rfl]
    rw [c1, c2, c3]
  · unfold readDotenv
    rw [readDotenvAux_append, readDotenvAux_cons_some hentry, readDotenvAux_nil]
    exact lookupDict_insert_self _ _ _

/-- Claim C3 (amended): provided the linking file initially contains at
most one identifier-defining line (always true for files this system
manages) and the freshly generated identifier is well-formed (as
`uuid.uuid4()` output is), running `init` twice in sequence yields the same
identifier both times — the identifier read back from the linking file is
returned unchanged, never regenerated — and after either call the linking
file contains exactly one identifier-defining line. -/
theorem C3_identifier_stability (m : Manager) (w : World) (u1 u2 : Str)
    (hu : wellFormedId u1) (hcount : countIdLines w.envFile ≤ 1) :
    (initOp m w u1).1.2 =
      (initOp (initOp m w u1).1.1 (initOp m w u1).2 u2).1.2 ∧
    countIdLines ((initOp m w u1).2).envFile = 1 ∧
    countIdLines ((initOp (initOp m w u1).1.1 (initOp m w u1).2 u2).2).envFile = 1 := by
  cases hl : lookupDict (readDotenv w.envFile) idKey with
  | some v0 =>
    obtain ⟨hid1, henv1⟩ := @initOp_present m w u1 v0 hl
    have hl2 : lookupDict (readDotenv ((initOp m w u1).2).envFile) idKey = some v0 := by
      rw [henv1]; exact hl
    obtain ⟨hid2, henv2⟩ := @initOp_present (initOp m w u1).1.1 (initOp m w u1).2 u2 _ hl2
    have hcount1 : countIdLines w.envFile = 1 := by
      obtain ⟨raw, hraw, hy⟩ := exists_yield_of_lookup_some hl
      have hpos : 0 < countIdLines w.envFile := List.countP_pos_iff.mpr ⟨raw, hraw, hy⟩
      omega
    exact ⟨by rw [hid1, hid2], by rw [henv1, hcount1], by rw [henv2, henv1, hcount1]⟩
  | none =>
    obtain ⟨hid1, henv1⟩ := @initOp_absent m w u1 hl
    obtain ⟨hc1, hlk⟩ := countIdLines_upsert_absent hu hl
    have hl2 : lookupDict (readDotenv ((initOp m w u1).2).envFile) idKey = some u1 := by
      rw [henv1]; exact hlk
    obtain ⟨hid2, henv2⟩ := @initOp_present (initOp m w u1).1.1 (initOp m w u1).2 u2 _ hl2
    exact ⟨by rw [hid1, hid2], by rw [henv1]; exact hc1,
           by rw [henv2, henv1]; exact hc1⟩

/-- Claim C3, counterexample to the claim as stated: a hand-edited linking
file holding TWO identifier lines keeps both after `init` (which takes the
present branch and never rewrites), so "the linking file contains exactly
one identifier entry after either call" fails. -/
theorem C3_counterexample :
    countIdLines ((initOp ⟨['p'], none, false⟩
      ⟨[idKey ++ ['=', 'a', '\n'], idKey ++ ['=', 'b', '\n']], [], []⟩ ['u']).2).envFile
      = 2 ∧
    countIdLines ((initOp ⟨['p'], none, false⟩
      ⟨[idKey ++ ['=', 'a', '\n'], idKey ++ ['=', 'b', '\n']], [], []⟩ ['u']).2).envFile
      ≠ 1 :=
  ⟨by decide, by decide⟩

/-- Claim C3, witness for the amended statement: on an empty project both
inits agree on the identifier. -/
theorem C3_identifier_stability_witness :
    (initOp ⟨['p'], none, false⟩ ⟨[], [], []⟩ ['u']).1.2 =
      (initOp (initOp ⟨['p'], none, false⟩ ⟨[], [], []⟩ ['u']).1.1
        (initOp ⟨['p'], none, false⟩ ⟨[], [], []⟩ ['u']).2 ['z']).1.2 :=
  (C3_identifier_stability ⟨['p'], none, false⟩ ⟨[], [], []⟩ ['u'] ['z']
    (by decide) (by decide)).1
